import Mathlib

set_option maxRecDepth 16000

set_option maxHeartbeats 2000000

/-!
Shallow embedding of the `fluent-hash` library (`src/lib.rs`): a fluent facade
over SHA-1 and SHA-2 message digests.  The library delegates all primitive hash
computation to the external `ring` crate; those external primitives are modelled
here by executable FIPS 180-4 implementations (Merkle-Damgard streaming state,
compression functions, padding), and the `hex` crate and `BufRead::lines` are
modelled by executable definitions of their documented behaviour.  Bytes are
`Nat` values (meaningful when `< 256`), machine words are `Nat` reduced with
explicit `% 2 ^ 32` / `% 2 ^ 64`, panics are modelled as `Except.error`.
-/

namespace FluentHash

/-! ### Word arithmetic -/

def rotr32 (n x : Nat) : Nat := (x >>> n) + ((x % 2 ^ n) <<< (32 - n))

def rotl32 (n x : Nat) : Nat := ((x <<< n) % 2 ^ 32) + (x >>> (32 - n))

def rotr64 (n x : Nat) : Nat := (x >>> n) + ((x % 2 ^ n) <<< (64 - n))

/-- Bisection search for the largest `x` with `f x ≤ n` (with `f` monotone);
used to obtain the integer square and cube roots that generate the SHA-2
round constants and initial hash values. -/
def rootAux (f : Nat → Nat) : Nat → Nat → Nat → Nat → Nat
  | 0, _, lo, _ => lo
  | fuel + 1, n, lo, hi =>
    if hi ≤ lo + 1 then lo
    else
      let mid := (lo + hi) / 2
      if f mid ≤ n then rootAux f fuel n mid hi else rootAux f fuel n lo mid

def isqrt (n : Nat) : Nat := rootAux (fun x => x * x) 300 n 0 (n + 1)

def icbrt (n : Nat) : Nat := rootAux (fun x => x * x * x) 300 n 0 (n + 1)

/-! ### Constants (FIPS 180-4): fractional parts of roots of primes -/

def primes64 : List Nat :=
  [2, 3, 5, 7, 11, 13, 17, 19, 23, 29, 31, 37, 41, 43, 47, 53,
   59, 61, 67, 71, 73, 79, 83, 89, 97, 101, 103, 107, 109, 113, 127, 131,
   137, 139, 149, 151, 157, 163, 167, 173, 179, 181, 191, 193, 197, 199, 211, 223,
   227, 229, 233, 239, 241, 251, 257, 263, 269, 271, 277, 281, 283, 293, 307, 311]

def primes80 : List Nat :=
  primes64 ++ [313, 317, 331, 337, 347, 349, 353, 359, 367, 373, 379, 383, 389, 397, 401, 409]

def K256 : List Nat := primes64.map (fun p => icbrt (p * 2 ^ 96) % 2 ^ 32)

def K512 : List Nat := primes80.map (fun p => icbrt (p * 2 ^ 192) % 2 ^ 64)

def sha1IV : List Nat := [0x67452301, 0xEFCDAB89, 0x98BADCFE, 0x10325476, 0xC3D2E1F0]

def sha256IV : List Nat := [2, 3, 5, 7, 11, 13, 17, 19].map (fun p => isqrt (p * 2 ^ 64) % 2 ^ 32)

def sha512IV : List Nat := [2, 3, 5, 7, 11, 13, 17, 19].map (fun p => isqrt (p * 2 ^ 128) % 2 ^ 64)

def sha384IV : List Nat :=
  [23, 29, 31, 37, 41, 43, 47, 53].map (fun p => isqrt (p * 2 ^ 128) % 2 ^ 64)

/-! ### Byte/word conversions (big-endian) -/

def beVal (l : List Nat) : Nat := l.foldl (fun a b => a * 256 + b) 0

def beBytes (k v : Nat) : List Nat := (List.range k).map (fun i => (v >>> (8 * (k - 1 - i))) % 256)

def wordsBE (k : Nat) (block : List Nat) : List Nat :=
  (List.range (block.length / k)).map (fun i => beVal ((block.drop (k * i)).take k))

/-! ### SHA-256 compression -/

def bsig0 (x : Nat) : Nat := rotr32 2 x ^^^ rotr32 13 x ^^^ rotr32 22 x

def bsig1 (x : Nat) : Nat := rotr32 6 x ^^^ rotr32 11 x ^^^ rotr32 25 x

def ssig0 (x : Nat) : Nat := rotr32 7 x ^^^ rotr32 18 x ^^^ (x >>> 3)

def ssig1 (x : Nat) : Nat := rotr32 17 x ^^^ rotr32 19 x ^^^ (x >>> 10)

def sched256Aux : Nat → List Nat → List Nat
  | 0, w => w
  | n + 1, w =>
    sched256Aux n (w ++ [(ssig1 (w.getD (w.length - 2) 0) + w.getD (w.length - 7) 0 +
      ssig0 (w.getD (w.length - 15) 0) + w.getD (w.length - 16) 0) % 2 ^ 32])

def step256 (st : Nat × Nat × Nat × Nat × Nat × Nat × Nat × Nat) (kw : Nat × Nat) :
    Nat × Nat × Nat × Nat × Nat × Nat × Nat × Nat :=
  match st, kw with
  | (a, b, c, d, e, f, g, h), (k, w) =>
    let t1 := (h + bsig1 e + ((e &&& f) ^^^ ((e ^^^ 0xffffffff) &&& g)) + k + w) % 2 ^ 32
    let t2 := (bsig0 a + ((a &&& b) ^^^ (a &&& c) ^^^ (b &&& c))) % 2 ^ 32
    ((t1 + t2) % 2 ^ 32, a, b, c, (d + t1) % 2 ^ 32, e, f, g)

def compress256 (h block : List Nat) : List Nat :=
  let w := sched256Aux 48 (wordsBE 4 block)
  match List.foldl step256
      (h.getD 0 0, h.getD 1 0, h.getD 2 0, h.getD 3 0,
       h.getD 4 0, h.getD 5 0, h.getD 6 0, h.getD 7 0) (K256.zip w) with
  | (a, b, c, d, e, f, g, hh) =>
    [(h.getD 0 0 + a) % 2 ^ 32, (h.getD 1 0 + b) % 2 ^ 32, (h.getD 2 0 + c) % 2 ^ 32,
     (h.getD 3 0 + d) % 2 ^ 32, (h.getD 4 0 + e) % 2 ^ 32, (h.getD 5 0 + f) % 2 ^ 32,
     (h.getD 6 0 + g) % 2 ^ 32, (h.getD 7 0 + hh) % 2 ^ 32]

/-! ### SHA-1 compression -/

def sched1Aux : Nat → List Nat → List Nat
  | 0, w => w
  | n + 1, w =>
    sched1Aux n (w ++ [rotl32 1 (w.getD (w.length - 3) 0 ^^^ w.getD (w.length - 8) 0 ^^^
      w.getD (w.length - 14) 0 ^^^ w.getD (w.length - 16) 0)])

def step1 (st : Nat × Nat × Nat × Nat × Nat) (tw : Nat × Nat) : Nat × Nat × Nat × Nat × Nat :=
  match st, tw with
  | (a, b, c, d, e), (t, wt) =>
    let f :=
      if t < 20 then (b &&& c) ^^^ ((b ^^^ 0xffffffff) &&& d)
      else if t < 40 then b ^^^ c ^^^ d
      else if t < 60 then (b &&& c) ^^^ (b &&& d) ^^^ (c &&& d)
      else b ^^^ c ^^^ d
    let k :=
      if t < 20 then 0x5a827999
      else if t < 40 then 0x6ed9eba1
      else if t < 60 then 0x8f1bbcdc
      else 0xca62c1d6
    ((rotl32 5 a + f + e + k + wt) % 2 ^ 32, a, rotl32 30 b, c, d)

def compress1 (h block : List Nat) : List Nat :=
  let w := sched1Aux 64 (wordsBE 4 block)
  match List.foldl step1 (h.getD 0 0, h.getD 1 0, h.getD 2 0, h.getD 3 0, h.getD 4 0) w.enum with
  | (a, b, c, d, e) =>
    [(h.getD 0 0 + a) % 2 ^ 32, (h.getD 1 0 + b) % 2 ^ 32, (h.getD 2 0 + c) % 2 ^ 32,
     (h.getD 3 0 + d) % 2 ^ 32, (h.getD 4 0 + e) % 2 ^ 32]

/-! ### SHA-512 compression (shared by SHA-384, SHA-512, SHA-512/256) -/

def b0w64 (x : Nat) : Nat := rotr64 28 x ^^^ rotr64 34 x ^^^ rotr64 39 x

def b1w64 (x : Nat) : Nat := rotr64 14 x ^^^ rotr64 18 x ^^^ rotr64 41 x

def s0w64 (x : Nat) : Nat := rotr64 1 x ^^^ rotr64 8 x ^^^ (x >>> 7)

def s1w64 (x : Nat) : Nat := rotr64 19 x ^^^ rotr64 61 x ^^^ (x >>> 6)

def sched512Aux : Nat → List Nat → List Nat
  | 0, w => w
  | n + 1, w =>
    sched512Aux n (w ++ [(s1w64 (w.getD (w.length - 2) 0) + w.getD (w.length - 7) 0 +
      s0w64 (w.getD (w.length - 15) 0) + w.getD (w.length - 16) 0) % 2 ^ 64])

def step512 (st : Nat × Nat × Nat × Nat × Nat × Nat × Nat × Nat) (kw : Nat × Nat) :
    Nat × Nat × Nat × Nat × Nat × Nat × Nat × Nat :=
  match st, kw with
  | (a, b, c, d, e, f, g, h), (k, w) =>
    let t1 := (h + b1w64 e + ((e &&& f) ^^^ ((e ^^^ 0xffffffffffffffff) &&& g)) + k + w) % 2 ^ 64
    let t2 := (b0w64 a + ((a &&& b) ^^^ (a &&& c) ^^^ (b &&& c))) % 2 ^ 64
    ((t1 + t2) % 2 ^ 64, a, b, c, (d + t1) % 2 ^ 64, e, f, g)

def compress512 (h block : List Nat) : List Nat :=
  let w := sched512Aux 64 (wordsBE 8 block)
  match List.foldl step512
      (h.getD 0 0, h.getD 1 0, h.getD 2 0, h.getD 3 0,
       h.getD 4 0, h.getD 5 0, h.getD 6 0, h.getD 7 0) (K512.zip w) with
  | (a, b, c, d, e, f, g, hh) =>
    [(h.getD 0 0 + a) % 2 ^ 64, (h.getD 1 0 + b) % 2 ^ 64, (h.getD 2 0 + c) % 2 ^ 64,
     (h.getD 3 0 + d) % 2 ^ 64, (h.getD 4 0 + e) % 2 ^ 64, (h.getD 5 0 + f) % 2 ^ 64,
     (h.getD 6 0 + g) % 2 ^ 64, (h.getD 7 0 + hh) % 2 ^ 64]

/-! ### Generic Merkle-Damgard machinery, modelling `ring::digest` -/

structure MDPrim where
  bs : Nat
  bsPos : 0 < bs
  lenBytes : Nat
  iv : List Nat
  compress : List Nat → List Nat → List Nat
  outWords : Nat
  wordBytes : Nat

/-- Repeatedly compress the leading full blocks of `l` into state `s`,
returning the final state and the remaining (short) buffer.  Fuelled by
`l.length` so that it reduces by iota in the kernel. -/
def absorbAux (p : MDPrim) : Nat → List Nat → List Nat → List Nat × List Nat
  | 0, s, l => (s, l)
  | fuel + 1, s, l =>
    if p.bs ≤ l.length then absorbAux p fuel (p.compress s (l.take p.bs)) (l.drop p.bs)
    else (s, l)

def absorbBlocks (p : MDPrim) (s l : List Nat) : List Nat × List Nat := absorbAux p l.length s l

def chunksAux (p : MDPrim) : Nat → List Nat → List (List Nat)
  | 0, _ => []
  | fuel + 1, l => if l = [] then [] else l.take p.bs :: chunksAux p fuel (l.drop p.bs)

def mdChunks (p : MDPrim) (l : List Nat) : List (List Nat) := chunksAux p l.length l

/-- FIPS 180-4 padding: `0x80`, zeros, then the bit length of the message
big-endian in the final `p.lenBytes` bytes, to a multiple of the block size. -/
def padBytes (p : MDPrim) (len : Nat) : List Nat :=
  128 :: (List.replicate ((p.bs - (len + 1 + p.lenBytes) % p.bs) % p.bs) 0 ++
    beBytes p.lenBytes (8 * len))

def mdExtract (p : MDPrim) (h : List Nat) : List Nat :=
  (List.range p.outWords).flatMap (fun i => beBytes p.wordBytes (h.getD i 0))

/-- One-shot reference digest: pad the whole message and fold the compression
function over its blocks.  This is the trusted reference primitive that
`ring::digest::digest` computes. -/
def mdDigest (p : MDPrim) (data : List Nat) : List Nat :=
  mdExtract p (List.foldl p.compress p.iv (mdChunks p (data ++ padBytes p data.length)))

def sha1Prim : MDPrim := ⟨64, by decide, 8, sha1IV, compress1, 5, 4⟩

def sha256Prim : MDPrim := ⟨64, by decide, 8, sha256IV, compress256, 8, 4⟩

def sha384Prim : MDPrim := ⟨128, by decide, 16, sha384IV, compress512, 6, 8⟩

def sha512Prim : MDPrim := ⟨128, by decide, 16, sha512IV, compress512, 8, 8⟩

/-- ASCII bytes of the string SHA-512/256, used by the FIPS 180-4 IV
generation function for truncated SHA-512 variants. -/
def ivMsg : List Nat := [83, 72, 65, 45, 53, 49, 50, 47, 50, 53, 54]

def genPrim : MDPrim :=
  ⟨128, by decide, 16, sha512IV.map (fun w => w ^^^ 0xa5a5a5a5a5a5a5a5), compress512, 8, 8⟩

/-- Initial hash value of SHA-512/256, generated as FIPS 180-4 prescribes:
SHA-512 with xored IV applied to the ASCII name of the variant. -/
def sha512_256IV : List Nat :=
  List.foldl compress512 genPrim.iv (mdChunks genPrim (ivMsg ++ padBytes genPrim ivMsg.length))

def sha512_256Prim : MDPrim := ⟨128, by decide, 16, sha512_256IV, compress512, 4, 8⟩

/-! ### The library surface (`src/lib.rs`) -/

/-- The hashing algorithm.  SHA-1 and SHA2 algorithms are supported.
(`pub enum Hashing`, lib.rs lines 24-35.) -/
inductive Hashing where
  | Sha1
  | Sha256
  | Sha384
  | Sha512
  | Sha512_256
  deriving DecidableEq

def Hashing.prim : Hashing → MDPrim
  | .Sha1 => sha1Prim
  | .Sha256 => sha256Prim
  | .Sha384 => sha384Prim
  | .Sha512 => sha512Prim
  | .Sha512_256 => sha512_256Prim

/-- A hash value holding the message digest (`pub struct Hash`, lib.rs line 119). -/
structure Hash where
  bytes : List Nat
  deriving DecidableEq

/-- A context for multi-step hash calculations (`pub struct HashContext`,
lib.rs line 96).  Models the running `ring::digest::Context`: chaining state,
unconsumed buffer of fewer than block-size bytes, and total length fed. -/
structure HashContext where
  alg : Hashing
  h : List Nat
  buf : List Nat
  len : Nat

/-- `Hashing::new_context` (lib.rs lines 40-53). -/
def Hashing.new_context (alg : Hashing) : HashContext := ⟨alg, alg.prim.iv, [], 0⟩

/-- `HashContext::update` (lib.rs lines 102-104). -/
def HashContext.update (ctx : HashContext) (data : List Nat) : HashContext :=
  ⟨ctx.alg, (absorbBlocks ctx.alg.prim ctx.h (ctx.buf ++ data)).1,
    (absorbBlocks ctx.alg.prim ctx.h (ctx.buf ++ data)).2, ctx.len + data.length⟩

/-- `HashContext::finish` (lib.rs lines 109-111): pad and produce the digest. -/
def HashContext.finish (ctx : HashContext) : Hash :=
  ⟨mdExtract ctx.alg.prim
    (absorbBlocks ctx.alg.prim ctx.h (ctx.buf ++ padBytes ctx.alg.prim ctx.len)).1⟩

/-- `Hashing::hash` (lib.rs lines 56-60): fresh context, one update, finish. -/
def Hashing.hash (alg : Hashing) (data : List Nat) : Hash :=
  ((alg.new_context).update data).finish

/-- `Hashing::hash_vec` (lib.rs lines 64-66): hashes the same bytes via `as_ref`. -/
def Hashing.hash_vec (alg : Hashing) (data : List Nat) : Hash := alg.hash data

/-- UTF-8 encoding of one scalar value, as `str::as_bytes` produces. -/
def utf8EncodeChar (c : Char) : List Nat :=
  let n := c.toNat
  if n < 128 then [n]
  else if n < 2048 then [192 + n / 64, 128 + n % 64]
  else if n < 65536 then [224 + n / 4096, 128 + n / 64 % 64, 128 + n % 64]
  else [240 + n / 262144, 128 + n / 4096 % 64, 128 + n / 64 % 64, 128 + n % 64]

def strBytes (s : String) : List Nat := s.data.flatMap utf8EncodeChar

/-- `Hashing::hash_str` (lib.rs lines 70-72): hashes the UTF-8 bytes of `data`. -/
def Hashing.hash_str (alg : Hashing) (data : String) : Hash := alg.hash (strBytes data)

/-- `Hash::as_bytes` (lib.rs lines 125-127). -/
def Hash.as_bytes (h : Hash) : List Nat := h.bytes

/-- `Hash::to_vec` (lib.rs lines 131-133). -/
def Hash.to_vec (h : Hash) : List Nat := h.bytes

def hexDigit (n : Nat) : Char := Char.ofNat (if n < 10 then 48 + n else 87 + n)

def hexChars (l : List Nat) : List Char :=
  l.flatMap (fun b => [hexDigit (b / 16), hexDigit (b % 16)])

/-- `Hash::to_hex` (lib.rs lines 137-139), modelling `hex::encode`. -/
def Hash.to_hex (h : Hash) : String := String.mk (hexChars h.bytes)

/-- The trusted reference digest of `data` under `alg` (`ring::digest::digest`). -/
def rdigest (alg : Hashing) (data : List Nat) : List Nat := mdDigest alg.prim data

def digestLength : Hashing → Nat
  | .Sha1 => 20
  | .Sha256 => 32
  | .Sha384 => 48
  | .Sha512 => 64
  | .Sha512_256 => 32

/-! ### Hex decoding (for the round-trip property) -/

def hexDigitVal (c : Char) : Option Nat :=
  if 48 ≤ c.toNat ∧ c.toNat ≤ 57 then some (c.toNat - 48)
  else if 97 ≤ c.toNat ∧ c.toNat ≤ 102 then some (c.toNat - 87)
  else if 65 ≤ c.toNat ∧ c.toNat ≤ 70 then some (c.toNat - 55)
  else none

def hexDecode : List Char → Option (List Nat)
  | [] => some []
  | [_] => none
  | c1 :: c2 :: rest =>
    match hexDigitVal c1, hexDigitVal c2, hexDecode rest with
    | some hi, some lo, some t => some ((16 * hi + lo) :: t)
    | _, _, _ => none

def isHexLowerChar (c : Char) : Bool :=
  decide ((48 ≤ c.toNat ∧ c.toNat ≤ 57) ∨ (97 ≤ c.toNat ∧ c.toNat ≤ 102))

/-! ### File hashing (`hash_file`, lib.rs lines 76-87) -/

/-- One byte of the strict UTF-8 validation automaton that
`String::from_utf8` implements (no overlong forms, no surrogates, maximum
U+10FFFF).  The state is the number of continuation bytes still expected,
with the admissible range for the next byte. -/
def utf8Next (st : Nat × Nat × Nat) (b : Nat) : Option (Nat × Nat × Nat) :=
  if st.1 = 0 then
    if b < 128 then some (0, 0, 0)
    else if 194 ≤ b ∧ b ≤ 223 then some (1, 128, 191)
    else if b = 224 then some (2, 160, 191)
    else if (225 ≤ b ∧ b ≤ 236) ∨ b = 238 ∨ b = 239 then some (2, 128, 191)
    else if b = 237 then some (2, 128, 159)
    else if b = 240 then some (3, 144, 191)
    else if 241 ≤ b ∧ b ≤ 243 then some (3, 128, 191)
    else if b = 244 then some (3, 128, 143)
    else none
  else if st.2.1 ≤ b ∧ b ≤ st.2.2 then some (st.1 - 1, 128, 191) else none

def utf8Scan (l : List Nat) : Option (Nat × Nat × Nat) :=
  l.foldl (fun ost b => ost.bind (fun st => utf8Next st b)) (some (0, 0, 0))

/-- Strict UTF-8 validity of a byte sequence, as `String::from_utf8` checks:
the automaton never rejects and ends expecting no continuation byte. -/
def validUtf8 (l : List Nat) : Bool :=
  match utf8Scan l with
  | some (0, _, _) => true
  | _ => false

/-- Split file content into raw lines, each including its terminating
line feed byte when present; the final segment may lack one.  This is the
sequence of buffers `BufRead::read_line` reads. -/
def splitLinesRaw : List Nat → List (List Nat)
  | [] => []
  | b :: rest =>
    if b = 10 then [10] :: splitLinesRaw rest
    else
      match splitLinesRaw rest with
      | [] => [[b]]
      | l :: ls => (b :: l) :: ls

/-- `Lines::next` post-processing: pop a trailing line feed, then a carriage
return directly before it. -/
def stripLine (l : List Nat) : List Nat :=
  match l.reverse with
  | a :: b :: r => if a = 10 then (if b = 13 then r.reverse else (b :: r).reverse) else l
  | [a] => if a = 10 then [] else l
  | [] => l

/-- The panic message of `line.unwrap()` on a non-UTF-8 line. -/
def utf8ErrMsg : String := "called Result::unwrap() on an Err value: stream did not contain valid UTF-8"

/-- The `for line in reader.lines() { ctx.update(line.unwrap().as_bytes()) }`
loop of `hash_file`: each raw line is UTF-8-checked (panic modelled as
`Except.error`) and the stripped line bytes are fed to the context. -/
def feedLines : HashContext → List (List Nat) → Except String HashContext
  | ctx, [] => .ok ctx
  | ctx, l :: ls =>
    if validUtf8 l then feedLines (ctx.update (stripLine l)) ls else .error utf8ErrMsg

def hashFileBytes (alg : Hashing) (content : List Nat) : Except String Hash :=
  (feedLines (alg.new_context) (splitLinesRaw content)).map HashContext.finish

/-- `Hashing::hash_file` (lib.rs lines 76-87).  The file system is a map from
paths to contents; `File::open` failure panics (modelled as `Except.error`)
with the `expect` message naming the path. -/
def Hashing.hash_file (alg : Hashing) (fs : String → Option (List Nat)) (path : String) :
    Except String Hash :=
  match fs path with
  | none => .error (("Failed to open file with path: ") ++ path)
  | some content => hashFileBytes alg content

/-- Replace each CR LF pair (left to right, non-overlapping) by a lone LF. -/
def replaceCRLF : List Nat → List Nat
  | [] => []
  | [b] => [b]
  | b :: c :: rest =>
    if b = 13 ∧ c = 10 then 10 :: replaceCRLF rest else b :: replaceCRLF (c :: rest)

instance {ε α : Type} [DecidableEq ε] [DecidableEq α] : DecidableEq (Except ε α)
  | .error a, .error b =>
    if h : a = b then .isTrue (by rw [h]) else .isFalse (fun he => h (Except.error.inj he))
  | .error _, .ok _ => .isFalse (fun he => Except.noConfusion he)
  | .ok _, .error _ => .isFalse (fun he => Except.noConfusion he)
  | .ok a, .ok b =>
    if h : a = b then .isTrue (by rw [h]) else .isFalse (fun he => h (Except.ok.inj he))

/-! ### Generic lemmas about the streaming state -/

theorem absorbAux_small (p : MDPrim) (f : Nat) (s l : List Nat) (h : ¬ p.bs ≤ l.length) :
    absorbAux p f s l = (s, l) := by
  cases f with
  | zero => rfl
  | succ f =>
    simp only [absorbAux]
    rw [if_neg h]

theorem absorbAux_nil (p : MDPrim) (f : Nat) (s : List Nat) : absorbAux p f s [] = (s, []) := by
  apply absorbAux_small
  have := p.bsPos
  simp only [List.length_nil]
  omega

theorem absorbAux_fuel (p : MDPrim) :
    ∀ f g s l, l.length ≤ f → l.length ≤ g → absorbAux p f s l = absorbAux p g s l := by
  intro f
  induction f with
  | zero =>
    intro g s l hf _
    have hl : l = [] := by
      cases l with
      | nil => rfl
      | cons a t => simp at hf
    subst hl
    rw [absorbAux_nil, absorbAux_nil]
  | succ f ih =>
    intro g s l hf hg
    cases g with
    | zero =>
      have hl : l = [] := by
        cases l with
        | nil => rfl
        | cons a t => simp at hg
      subst hl
      rw [absorbAux_nil, absorbAux_nil]
    | succ g =>
      by_cases h : p.bs ≤ l.length
      · have hb := p.bsPos
        simp only [absorbAux, if_pos h]
        apply ih
        · simp only [List.length_drop]
          omega
        · simp only [List.length_drop]
          omega
      · simp only [absorbAux, if_neg h]

theorem absorbBlocks_step (p : MDPrim) (s l : List Nat) (h : p.bs ≤ l.length) :
    absorbBlocks p s l = absorbBlocks p (p.compress s (l.take p.bs)) (l.drop p.bs) := by
  have hb := p.bsPos
  have hlen : l.length = (l.length - 1) + 1 := by omega
  unfold absorbBlocks
  rw [hlen]
  simp only [absorbAux, if_pos h]
  exact absorbAux_fuel p _ _ _ _ (by simp only [List.length_drop]; omega) (Nat.le_refl _)

theorem absorbBlocks_small (p : MDPrim) (s l : List Nat) (h : ¬ p.bs ≤ l.length) :
    absorbBlocks p s l = (s, l) :=
  absorbAux_small p l.length s l h

theorem absorbBlocks_nil (p : MDPrim) (s : List Nat) : absorbBlocks p s [] = (s, []) :=
  absorbAux_nil p 0 s

theorem absorbBlocks_append_aux (p : MDPrim) :
    ∀ n l s m, l.length ≤ n →
      absorbBlocks p s (l ++ m) =
        absorbBlocks p (absorbBlocks p s l).1 ((absorbBlocks p s l).2 ++ m) := by
  intro n
  induction n with
  | zero =>
    intro l s m hf
    have hl : l = [] := by
      cases l with
      | nil => rfl
      | cons a t => simp at hf
    subst hl
    rw [absorbBlocks_nil]
  | succ n ih =>
    intro l s m hf
    by_cases h : p.bs ≤ l.length
    · have hb := p.bsPos
      have hm : p.bs ≤ (l ++ m).length := by
        simp only [List.length_append]
        omega
      rw [absorbBlocks_step p s (l ++ m) hm, absorbBlocks_step p s l h,
        List.take_append_of_le_length h, List.drop_append_of_le_length h]
      exact ih (l.drop p.bs) _ m (by simp only [List.length_drop]; omega)
    · rw [absorbBlocks_small p s l h]

theorem absorbBlocks_append (p : MDPrim) (s l m : List Nat) :
    absorbBlocks p s (l ++ m) =
      absorbBlocks p (absorbBlocks p s l).1 ((absorbBlocks p s l).2 ++ m) :=
  absorbBlocks_append_aux p l.length l s m (Nat.le_refl _)

theorem chunksAux_nil (p : MDPrim) (f : Nat) : chunksAux p f [] = [] := by
  cases f with
  | zero => rfl
  | succ f => simp [chunksAux]

theorem chunksAux_fuel (p : MDPrim) :
    ∀ f g l, l.length ≤ f → l.length ≤ g → chunksAux p f l = chunksAux p g l := by
  intro f
  induction f with
  | zero =>
    intro g l hf _
    have hl : l = [] := by
      cases l with
      | nil => rfl
      | cons a t => simp at hf
    subst hl
    rw [chunksAux_nil, chunksAux_nil]
  | succ f ih =>
    intro g l hf hg
    cases g with
    | zero =>
      have hl : l = [] := by
        cases l with
        | nil => rfl
        | cons a t => simp at hg
      subst hl
      rw [chunksAux_nil, chunksAux_nil]
    | succ g =>
      by_cases h : l = []
      · subst h
        rw [chunksAux_nil, chunksAux_nil]
      · have hb := p.bsPos
        have hpos : 0 < l.length := List.length_pos.mpr h
        simp only [chunksAux, if_neg h]
        congr 1
        apply ih
        · simp only [List.length_drop]
          omega
        · simp only [List.length_drop]
          omega

theorem mdChunks_nil (p : MDPrim) : mdChunks p [] = [] := rfl

theorem mdChunks_cons (p : MDPrim) (l : List Nat) (h : l ≠ []) :
    mdChunks p l = l.take p.bs :: mdChunks p (l.drop p.bs) := by
  have hb := p.bsPos
  have hpos : 0 < l.length := List.length_pos.mpr h
  have hlen : l.length = (l.length - 1) + 1 := by omega
  unfold mdChunks
  rw [hlen]
  simp only [chunksAux, if_neg h]
  congr 1
  exact chunksAux_fuel p _ _ _ (by simp only [List.length_drop]; omega) (Nat.le_refl _)

theorem absorbBlocks_exact_aux (p : MDPrim) :
    ∀ n l s, l.length ≤ n → p.bs ∣ l.length →
      absorbBlocks p s l = (List.foldl p.compress s (mdChunks p l), []) := by
  intro n
  induction n with
  | zero =>
    intro l s hf _
    have hl : l = [] := by
      cases l with
      | nil => rfl
      | cons a t => simp at hf
    subst hl
    rw [absorbBlocks_nil, mdChunks_nil]
    rfl
  | succ n ih =>
    intro l s hf hd
    by_cases h : l = []
    · subst h
      rw [absorbBlocks_nil, mdChunks_nil]
      rfl
    · have hb := p.bsPos
      have hpos : 0 < l.length := List.length_pos.mpr h
      have hbs : p.bs ≤ l.length := Nat.le_of_dvd hpos hd
      rw [absorbBlocks_step p s l hbs, mdChunks_cons p l h, List.foldl_cons]
      apply ih
      · simp only [List.length_drop]
        omega
      · simp only [List.length_drop]
        exact Nat.dvd_sub' hd dvd_rfl

theorem absorbBlocks_exact (p : MDPrim) (s l : List Nat) (h : p.bs ∣ l.length) :
    absorbBlocks p s l = (List.foldl p.compress s (mdChunks p l), []) :=
  absorbBlocks_exact_aux p l.length l s (Nat.le_refl _) h

theorem beBytes_length (k v : Nat) : (beBytes k v).length = k := by
  simp [beBytes]

theorem padBytes_length (p : MDPrim) (len : Nat) :
    (padBytes p len).length
      = 1 + ((p.bs - (len + 1 + p.lenBytes) % p.bs) % p.bs + p.lenBytes) := by
  simp [padBytes, beBytes_length]
  omega

theorem padBytes_mod (p : MDPrim) (len : Nat) : (len + (padBytes p len).length) % p.bs = 0 := by
  have hb := p.bsPos
  rw [padBytes_length]
  rcases Nat.eq_zero_or_pos ((len + 1 + p.lenBytes) % p.bs) with h0 | hpos
  · have hz : (p.bs - (len + 1 + p.lenBytes) % p.bs) % p.bs = 0 := by
      rw [h0, Nat.sub_zero, Nat.mod_self]
    rw [hz]
    have he : len + (1 + (0 + p.lenBytes)) = len + 1 + p.lenBytes := by omega
    rw [he]
    exact h0
  · have hmlt : (len + 1 + p.lenBytes) % p.bs < p.bs := Nat.mod_lt _ hb
    have hz : (p.bs - (len + 1 + p.lenBytes) % p.bs) % p.bs
        = p.bs - (len + 1 + p.lenBytes) % p.bs := Nat.mod_eq_of_lt (by omega)
    rw [hz]
    have hsum : len + (1 + (p.bs - (len + 1 + p.lenBytes) % p.bs + p.lenBytes))
        = (len + 1 + p.lenBytes) + (p.bs - (len + 1 + p.lenBytes) % p.bs) := by omega
    rw [hsum, Nat.add_mod,
      Nat.mod_eq_of_lt (show p.bs - (len + 1 + p.lenBytes) % p.bs < p.bs by omega)]
    have hfull : (len + 1 + p.lenBytes) % p.bs + (p.bs - (len + 1 + p.lenBytes) % p.bs)
        = p.bs := by omega
    rw [hfull, Nat.mod_self]

/-- The context pipeline (buffering update, padding finish) computes exactly
the one-shot reference digest. -/
theorem hash_bytes_eq (alg : Hashing) (data : List Nat) :
    (alg.hash data).bytes = mdDigest alg.prim data := by
  unfold Hashing.hash Hashing.new_context HashContext.update HashContext.finish
  dsimp only
  simp only [List.nil_append, Nat.zero_add]
  rw [← absorbBlocks_append]
  rw [absorbBlocks_exact alg.prim _ _
    (by
      simp only [List.length_append]
      exact Nat.dvd_of_mod_eq_zero (padBytes_mod alg.prim data.length))]
  rfl

theorem update_update (ctx : HashContext) (A B : List Nat) :
    (ctx.update A).update B = ctx.update (A ++ B) := by
  unfold HashContext.update
  dsimp only
  rw [← absorbBlocks_append, List.append_assoc]
  simp [List.length_append, Nat.add_assoc]

/-! ### Claim theorems: pure hashing -/

/-- Claim C1: for every algorithm and byte sequence, `hash data` is the digest
of a fresh context updated once and finished, and its bytes, byte vector and
hex string match the trusted reference primitive digest of `data`. -/
theorem c1_hash_matches_reference (alg : Hashing) (data : List Nat) :
    alg.hash data = ((alg.new_context).update data).finish ∧
    (alg.hash data).as_bytes = rdigest alg data ∧
    (alg.hash data).to_vec = rdigest alg data ∧
    (alg.hash data).to_hex = String.mk (hexChars (rdigest alg data)) := by
  refine ⟨rfl, ?_, ?_, ?_⟩
  · show (alg.hash data).bytes = rdigest alg data
    exact hash_bytes_eq alg data
  · show (alg.hash data).bytes = rdigest alg data
    exact hash_bytes_eq alg data
  · show String.mk (hexChars (alg.hash data).bytes) = String.mk (hexChars (rdigest alg data))
    rw [hash_bytes_eq alg data]
    rfl

/-- Claim C2: updating with `A` then `B` and finishing equals `hash (A ++ B)`;
the digest depends only on the concatenation of the updated chunks. -/
theorem c2_incremental_equivalence (alg : Hashing) (ctx : HashContext) (A B : List Nat) :
    (((alg.new_context).update A).update B).finish = alg.hash (A ++ B) ∧
    (ctx.update A).update B = ctx.update (A ++ B) := by
  constructor
  · rw [update_update]
    rfl
  · exact update_update ctx A B

theorem mdExtract_length_aux (k : Nat) (g : Nat → Nat) :
    ∀ n, ((List.range n).flatMap fun i => beBytes k (g i)).length = n * k := by
  intro n
  induction n with
  | zero => simp
  | succ n ih =>
    rw [List.range_succ, List.flatMap_append]
    simp only [List.length_append, ih, List.flatMap_cons, List.flatMap_nil, List.append_nil,
      beBytes_length]
    ring

theorem mdExtract_length (p : MDPrim) (h : List Nat) :
    (mdExtract p h).length = p.outWords * p.wordBytes :=
  mdExtract_length_aux p.wordBytes _ p.outWords

theorem finish_bytes_length (ctx : HashContext) :
    ((ctx.finish).bytes).length = ctx.alg.prim.outWords * ctx.alg.prim.wordBytes :=
  mdExtract_length _ _

/-- Claim C5: digest byte lengths are 20/32/48/64/32 for the five algorithms,
for every input (including the empty input). -/
theorem c5_digest_lengths (data : List Nat) :
    (Hashing.Sha1.hash data).as_bytes.length = 20 ∧
    (Hashing.Sha256.hash data).as_bytes.length = 32 ∧
    (Hashing.Sha384.hash data).as_bytes.length = 48 ∧
    (Hashing.Sha512.hash data).as_bytes.length = 64 ∧
    (Hashing.Sha512_256.hash data).as_bytes.length = 32 :=
  ⟨finish_bytes_length _, finish_bytes_length _, finish_bytes_length _,
    finish_bytes_length _, finish_bytes_length _⟩

/-! ### Hex view lemmas -/

theorem beBytes_lt (k v : Nat) : ∀ b ∈ beBytes k v, b < 256 := by
  intro b hb
  simp only [beBytes, List.mem_map, List.mem_range] at hb
  obtain ⟨i, _, hib⟩ := hb
  omega

theorem mdExtract_lt (p : MDPrim) (h : List Nat) : ∀ b ∈ mdExtract p h, b < 256 := by
  intro b hb
  simp only [mdExtract, List.mem_flatMap] at hb
  obtain ⟨i, _, hbi⟩ := hb
  exact beBytes_lt _ _ b hbi

theorem hexDigitVal_hexDigit : ∀ n, n < 16 → hexDigitVal (hexDigit n) = some n := by decide

theorem isHexLowerChar_hexDigit : ∀ n, n < 16 → isHexLowerChar (hexDigit n) = true := by decide

theorem hexDecode_hexChars :
    ∀ l : List Nat, (∀ b ∈ l, b < 256) → hexDecode (hexChars l) = some l := by
  intro l
  induction l with
  | nil => intro; rfl
  | cons b t ih =>
    intro h
    have hb : b < 256 := h b (by simp)
    have h1 : b / 16 < 16 := by omega
    have h2 : b % 16 < 16 := Nat.mod_lt _ (by omega)
    have ht := ih (fun x hx => h x (by simp [hx]))
    simp only [hexChars, List.flatMap_cons, List.cons_append, List.nil_append]
    simp only [hexChars] at ht
    simp only [hexDecode, hexDigitVal_hexDigit _ h1, hexDigitVal_hexDigit _ h2, ht]
    rw [Nat.div_add_mod]

theorem hexChars_length (l : List Nat) : (hexChars l).length = 2 * l.length := by
  induction l with
  | nil => rfl
  | cons b t ih =>
    simp only [hexChars, List.flatMap_cons, List.cons_append, List.nil_append,
      List.length_cons] at ih ⊢
    omega

theorem hexChars_mem_lower (l : List Nat) (hl : ∀ b ∈ l, b < 256) :
    ∀ c ∈ hexChars l, isHexLowerChar c = true := by
  intro c hc
  simp only [hexChars, List.mem_flatMap, List.mem_cons, List.not_mem_nil, or_false,
    List.mem_singleton] at hc
  obtain ⟨b, hb, hcb⟩ := hc
  have h256 := hl b hb
  rcases hcb with h | h <;> subst h
  · exact isHexLowerChar_hexDigit _ (by omega)
  · exact isHexLowerChar_hexDigit _ (Nat.mod_lt _ (by omega))

/-- Claim C4: the three digest views agree bit for bit: `to_vec` equals
`as_bytes`, decoding `to_hex` reproduces `as_bytes`, the hex string has
exactly twice the digest byte length and is lowercase hex throughout. -/
theorem c4_digest_views_agree (ctx : HashContext) :
    (ctx.finish).to_vec = (ctx.finish).as_bytes ∧
    hexDecode ((ctx.finish).to_hex).data = some ((ctx.finish).as_bytes) ∧
    ((ctx.finish).to_hex).length = 2 * ((ctx.finish).as_bytes).length ∧
    ∀ c ∈ ((ctx.finish).to_hex).data, isHexLowerChar c = true := by
  have hlt : ∀ b ∈ (ctx.finish).bytes, b < 256 := by
    show ∀ b ∈ mdExtract _ _, b < 256
    exact mdExtract_lt _ _
  refine ⟨rfl, ?_, ?_, ?_⟩
  · show hexDecode (hexChars (ctx.finish).bytes) = some (ctx.finish).bytes
    exact hexDecode_hexChars _ hlt
  · show (hexChars (ctx.finish).bytes).length = 2 * (ctx.finish).bytes.length
    exact hexChars_length _
  · show ∀ c ∈ hexChars (ctx.finish).bytes, isHexLowerChar c = true
    exact hexChars_mem_lower _ hlt

/-! ### Input-form consistency -/

/-- Claim C6: hashing the same bytes as a slice, as an owned vector, and as
the UTF-8 encoding of a string all produce identical digests. -/
theorem c6_input_forms (alg : Hashing) (data : List Nat) (s : String)
    (h : strBytes s = data) :
    alg.hash_vec data = alg.hash data ∧ alg.hash_str s = alg.hash data := by
  refine ⟨rfl, ?_⟩
  unfold Hashing.hash_str
  rw [h]

theorem c6_input_forms_witness :
    strBytes (String.mk [Char.ofNat 97, Char.ofNat 98, Char.ofNat 99]) = [97, 98, 99] ∧
    (Hashing.Sha256.hash_vec [97, 98, 99] = Hashing.Sha256.hash [97, 98, 99] ∧
      Hashing.Sha256.hash_str (String.mk [Char.ofNat 97, Char.ofNat 98, Char.ofNat 99])
        = Hashing.Sha256.hash [97, 98, 99]) :=
  ⟨by decide,
    c6_input_forms Hashing.Sha256 [97, 98, 99]
      (String.mk [Char.ofNat 97, Char.ofNat 98, Char.ofNat 99]) (by decide)⟩

/-! ### File opening failure -/

/-- Claim C8: when the file cannot be opened, `hash_file` terminates the
process (modelled by the error outcome) with a message naming the path,
rather than returning a digest. -/
theorem c8_file_open_failure (alg : Hashing) (fs : String → Option (List Nat)) (path : String)
    (h : fs path = none) :
    alg.hash_file fs path = Except.error (("Failed to open file with path: ") ++ path) := by
  unfold Hashing.hash_file
  rw [h]

theorem c8_file_open_failure_witness :
    ((fun (_ : String) => (none : Option (List Nat))) ("a")) = none ∧
    Hashing.Sha256.hash_file (fun _ => none) ("a")
      = Except.error (("Failed to open file with path: ") ++ ("a")) :=
  ⟨rfl, c8_file_open_failure Hashing.Sha256 (fun _ => none) ("a") rfl⟩

/-! ### Invalid UTF-8 lines -/

theorem feedLines_err :
    ∀ (ls : List (List Nat)) (ctx : HashContext), (∃ l, l ∈ ls ∧ validUtf8 l = false) →
      feedLines ctx ls = Except.error utf8ErrMsg := by
  intro ls
  induction ls with
  | nil =>
    rintro ctx ⟨l, hl, _⟩
    cases hl
  | cons a t ih =>
    rintro ctx ⟨l, hl, hv⟩
    by_cases ha : validUtf8 a
    · simp only [feedLines, if_pos ha]
      apply ih
      refine ⟨l, ?_, hv⟩
      rcases List.mem_cons.mp hl with h | h
      · subst h
        rw [ha] at hv
        cases hv
      · exact h
    · simp only [feedLines]
      rw [if_neg ha]

/-- Claim C9: `hash_file` requires the file content to be valid UTF-8: any
file containing a line that is not valid UTF-8 makes `hash_file` terminate
the process (the line-read result is unwrapped; modelled as the error
outcome) instead of hashing the bytes. -/
theorem c9_invalid_utf8_panics (alg : Hashing) (fs : String → Option (List Nat))
    (path : String) (content : List Nat) (h1 : fs path = some content)
    (h2 : ∃ l, l ∈ splitLinesRaw content ∧ validUtf8 l = false) :
    alg.hash_file fs path = Except.error utf8ErrMsg := by
  unfold Hashing.hash_file
  rw [h1]
  dsimp only
  unfold hashFileBytes
  rw [feedLines_err _ _ h2]
  rfl

theorem c9_invalid_utf8_panics_witness :
    ((fun (_ : String) => some [255]) ("a")) = some [255] ∧
    ([255] ∈ splitLinesRaw [255] ∧ validUtf8 [255] = false) ∧
    Hashing.Sha256.hash_file (fun _ => some [255]) ("a") = Except.error utf8ErrMsg :=
  ⟨rfl, by decide,
    c9_invalid_utf8_panics Hashing.Sha256 (fun _ => some [255]) ("a") [255] rfl
      ⟨[255], by decide⟩⟩

/-! ### CRLF replacement lemmas (claim C10) -/

theorem replaceCRLF_nil : replaceCRLF [] = [] := rfl

theorem replaceCRLF_single (b : Nat) : replaceCRLF [b] = [b] := rfl

theorem replaceCRLF_crlf (r : List Nat) : replaceCRLF (13 :: 10 :: r) = 10 :: replaceCRLF r := by
  simp [replaceCRLF]

theorem replaceCRLF_cons2 (b c : Nat) (r : List Nat) (h : ¬ (b = 13 ∧ c = 10)) :
    replaceCRLF (b :: c :: r) = b :: replaceCRLF (c :: r) := by
  simp only [replaceCRLF]
  rw [if_neg h]

theorem replaceCRLF_ne_nil (x : Nat) (xs : List Nat) : replaceCRLF (x :: xs) ≠ [] := by
  cases xs with
  | nil => simp [replaceCRLF]
  | cons c r =>
    by_cases h : x = 13 ∧ c = 10
    · simp only [replaceCRLF]
      rw [if_pos h]
      simp
    · rw [replaceCRLF_cons2 x c r h]
      simp

theorem replaceCRLF_no_lf (s : List Nat) (h : 10 ∉ s) : replaceCRLF s = s := by
  induction s with
  | nil => rfl
  | cons a t ih =>
    cases t with
    | nil => rfl
    | cons b r =>
      have hb : b ≠ 10 := by
        intro hb
        exact h (by simp [hb])
      rw [replaceCRLF_cons2 a b r (by rintro ⟨_, h2⟩; exact hb h2)]
      rw [ih (fun hm => h (List.mem_cons_of_mem a hm))]

theorem replaceCRLF_append_crlf (s : List Nat) (h : 10 ∉ s) :
    replaceCRLF (s ++ [13, 10]) = s ++ [10] := by
  induction s with
  | nil => rfl
  | cons a t ih =>
    have ht : 10 ∉ t := fun hm => h (List.mem_cons_of_mem a hm)
    cases t with
    | nil =>
      simp only [List.cons_append, List.nil_append]
      rw [replaceCRLF_cons2 a 13 [10] (by rintro ⟨_, h2⟩; exact absurd h2 (by decide))]
      rw [replaceCRLF_crlf]
      rfl
    | cons b r =>
      have hb : b ≠ 10 := by
        intro hb
        exact h (by simp [hb])
      simp only [List.cons_append] at ih ⊢
      rw [replaceCRLF_cons2 a b (r ++ [13, 10]) (by rintro ⟨_, h2⟩; exact hb h2)]
      rw [ih ht]

theorem replaceCRLF_keep (t : List Nat) (x : Nat) (hx13 : x ≠ 13) (hx10 : x ≠ 10)
    (h : 10 ∉ t) : replaceCRLF (t ++ [x, 10]) = t ++ [x, 10] := by
  induction t with
  | nil =>
    simp only [List.nil_append]
    rw [replaceCRLF_cons2 x 10 [] (by rintro ⟨h1, _⟩; exact hx13 h1)]
    rfl
  | cons a t ih =>
    have ht : 10 ∉ t := fun hm => h (List.mem_cons_of_mem a hm)
    cases t with
    | nil =>
      simp only [List.cons_append, List.nil_append]
      rw [replaceCRLF_cons2 a x [10] (by rintro ⟨_, h2⟩; exact hx10 h2)]
      rw [replaceCRLF_cons2 x 10 [] (by rintro ⟨h1, _⟩; exact hx13 h1)]
      rfl
    | cons b r =>
      have hb : b ≠ 10 := by
        intro hb
        exact h (by simp [hb])
      simp only [List.cons_append] at ih ⊢
      rw [replaceCRLF_cons2 a b (r ++ [x, 10]) (by rintro ⟨_, h2⟩; exact hb h2)]
      rw [ih ht]

/-! ### Raw line splitting lemmas -/

theorem splitLinesRaw_lf (rest : List Nat) :
    splitLinesRaw (10 :: rest) = [10] :: splitLinesRaw rest := by
  simp [splitLinesRaw]

theorem splitLinesRaw_cons_nil (b : Nat) (rest : List Nat) (hb : b ≠ 10)
    (h : splitLinesRaw rest = []) : splitLinesRaw (b :: rest) = [[b]] := by
  simp [splitLinesRaw, hb, h]

theorem splitLinesRaw_cons_cons (b : Nat) (rest l : List Nat) (ls : List (List Nat))
    (hb : b ≠ 10) (h : splitLinesRaw rest = l :: ls) :
    splitLinesRaw (b :: rest) = (b :: l) :: ls := by
  simp [splitLinesRaw, hb, h]

theorem splitLinesRaw_ne_nil (b : Nat) (rest : List Nat) : splitLinesRaw (b :: rest) ≠ [] := by
  by_cases hb : b = 10
  · subst hb
    rw [splitLinesRaw_lf]
    simp
  · cases h : splitLinesRaw rest with
    | nil =>
      rw [splitLinesRaw_cons_nil b rest hb h]
      simp
    | cons l ls =>
      rw [splitLinesRaw_cons_cons b rest l ls hb h]
      simp

theorem splitLinesRaw_head (b : Nat) (rest : List Nat) :
    ∃ t ls, splitLinesRaw (b :: rest) = (b :: t) :: ls := by
  by_cases hb : b = 10
  · subst hb
    exact ⟨[], splitLinesRaw rest, splitLinesRaw_lf rest⟩
  · cases h : splitLinesRaw rest with
    | nil => exact ⟨[], [], splitLinesRaw_cons_nil b rest hb h⟩
    | cons l ls => exact ⟨l, ls, splitLinesRaw_cons_cons b rest l ls hb h⟩

theorem splitLinesRaw_eq_nil (c : List Nat) (h : splitLinesRaw c = []) : c = [] := by
  cases c with
  | nil => rfl
  | cons b rest => exact absurd h (splitLinesRaw_ne_nil b rest)

theorem splitLinesRaw_flatten (c : List Nat) : (splitLinesRaw c).flatten = c := by
  induction c with
  | nil => rfl
  | cons b rest ih =>
    by_cases hb : b = 10
    · subst hb
      rw [splitLinesRaw_lf]
      simp only [List.flatten_cons, List.cons_append, List.nil_append]
      rw [ih]
    · cases h : splitLinesRaw rest with
      | nil =>
        have hr : rest = [] := splitLinesRaw_eq_nil rest h
        subst hr
        rw [splitLinesRaw_cons_nil b [] hb rfl]
        rfl
      | cons l ls =>
        rw [splitLinesRaw_cons_cons b rest l ls hb h]
        rw [h] at ih
        simp only [List.flatten_cons, List.cons_append] at ih ⊢
        rw [ih]

theorem splitLinesRaw_shape (c : List Nat) :
    ∀ l ∈ splitLinesRaw c, l ≠ [] ∧ 10 ∉ l.dropLast := by
  induction c with
  | nil =>
    intro l hl
    cases hl
  | cons b rest ih =>
    by_cases hb : b = 10
    · subst hb
      rw [splitLinesRaw_lf]
      intro l hl
      rcases List.mem_cons.mp hl with h1 | h1
      · subst h1
        exact ⟨by simp, by simp⟩
      · exact ih l h1
    · cases h : splitLinesRaw rest with
      | nil =>
        rw [splitLinesRaw_cons_nil b rest hb h]
        intro l hl
        rcases List.mem_cons.mp hl with h1 | h1
        · subst h1
          exact ⟨by simp, by simp⟩
        · cases h1
      | cons l0 ls =>
        rw [splitLinesRaw_cons_cons b rest l0 ls hb h]
        intro l hl
        rcases List.mem_cons.mp hl with h1 | h1
        · subst h1
          obtain ⟨hne, hdl⟩ := ih l0 (by rw [h]; simp)
          refine ⟨by simp, ?_⟩
          cases l0 with
          | nil => exact absurd rfl hne
          | cons x xs =>
            rw [List.dropLast_cons₂]
            intro hmem
            rcases List.mem_cons.mp hmem with h2 | h2
            · exact hb h2.symm
            · exact hdl h2
        · exact ih l (by rw [h]; simp [h1])

/-- Replacement distributes over the raw line decomposition: every line
terminator is preserved, so lines are replaced linewise. -/
theorem splitLinesRaw_replace (c : List Nat) :
    splitLinesRaw (replaceCRLF c) = (splitLinesRaw c).map replaceCRLF := by
  induction c using replaceCRLF.induct with
  | case1 => rfl
  | case2 b =>
    rw [replaceCRLF_single]
    by_cases hb : b = 10
    · subst hb
      rfl
    · rw [splitLinesRaw_cons_nil b [] hb rfl]
      simp [replaceCRLF_single]
  | case3 b c' r hcond ih =>
    obtain ⟨rfl, rfl⟩ := hcond
    rw [replaceCRLF_crlf, splitLinesRaw_lf, ih]
    rw [splitLinesRaw_cons_cons 13 (10 :: r) [10] (splitLinesRaw r) (by decide)
      (splitLinesRaw_lf r)]
    simp only [List.map_cons]
    rfl
  | case4 b c' r hcond ih =>
    rw [replaceCRLF_cons2 b c' r hcond]
    by_cases hb : b = 10
    · subst hb
      rw [splitLinesRaw_lf, ih, splitLinesRaw_lf]
      simp only [List.map_cons]
      rfl
    · obtain ⟨t, ls, hsl⟩ := splitLinesRaw_head c' r
      have hx : splitLinesRaw (replaceCRLF (c' :: r))
          = replaceCRLF (c' :: t) :: List.map replaceCRLF ls := by
        rw [ih, hsl]
        rfl
      rw [splitLinesRaw_cons_cons b (replaceCRLF (c' :: r)) _ _ hb hx]
      rw [splitLinesRaw_cons_cons b (c' :: r) (c' :: t) ls hb hsl]
      simp only [List.map_cons]
      congr 1
      exact (replaceCRLF_cons2 b c' t hcond).symm

/-! ### Line stripping lemmas -/

theorem stripLine_crlf (s : List Nat) : stripLine (s ++ [13, 10]) = s := by
  have hrev : (s ++ [13, 10]).reverse = 10 :: 13 :: s.reverse := by simp
  unfold stripLine
  rw [hrev]
  simp

theorem stripLine_lf_of_ne (s : List Nat) (y : Nat) (hy : y ≠ 13) :
    stripLine ((s ++ [y]) ++ [10]) = s ++ [y] := by
  have hrev : ((s ++ [y]) ++ [10]).reverse = 10 :: y :: s.reverse := by simp
  unfold stripLine
  rw [hrev]
  simp [hy]

/-! ### UTF-8 validity is unchanged by trailing ASCII bytes -/

theorem utf8Next_inv (st : Nat × Nat × Nat) (b : Nat) (st' : Nat × Nat × Nat)
    (h : utf8Next st b = some st') : st'.1 = 0 ∨ 128 ≤ st'.2.1 := by
  unfold utf8Next at h
  split_ifs at h
  all_goals (try cases h)
  all_goals simp

theorem foldl_utf8_inv :
    ∀ (l : List Nat) (ost : Option (Nat × Nat × Nat)),
      (∀ st, ost = some st → st.1 = 0 ∨ 128 ≤ st.2.1) →
      ∀ st', l.foldl (fun ost b => ost.bind (fun st => utf8Next st b)) ost = some st' →
        st'.1 = 0 ∨ 128 ≤ st'.2.1 := by
  intro l
  induction l with
  | nil =>
    intro ost h st' hres
    exact h st' hres
  | cons b t ih =>
    intro ost h st' hres
    simp only [List.foldl_cons] at hres
    apply ih _ _ st' hres
    intro st hst
    rcases ost with _ | prev
    · simp at hst
    · simp only [Option.some_bind] at hst
      exact utf8Next_inv prev b st hst

theorem utf8Scan_inv (l : List Nat) (st' : Nat × Nat × Nat) (h : utf8Scan l = some st') :
    st'.1 = 0 ∨ 128 ≤ st'.2.1 := by
  apply foldl_utf8_inv l (some (0, 0, 0)) _ st' h
  intro st hst
  obtain rfl := Option.some.inj hst
  simp

theorem utf8Scan_append (l m : List Nat) :
    utf8Scan (l ++ m)
      = m.foldl (fun ost b => ost.bind (fun st => utf8Next st b)) (utf8Scan l) := by
  unfold utf8Scan
  rw [List.foldl_append]

/-- Appending a single ASCII byte does not change UTF-8 validity. -/
theorem validUtf8_ascii (s : List Nat) (a : Nat) (ha : a < 128) :
    validUtf8 (s ++ [a]) = validUtf8 s := by
  unfold validUtf8
  rw [utf8Scan_append]
  cases hscan : utf8Scan s with
  | none => simp
  | some st =>
    obtain ⟨need, lo, hi⟩ := st
    simp only [List.foldl_cons, List.foldl_nil, Option.some_bind]
    rcases Nat.eq_zero_or_pos need with rfl | hpos
    · rw [show utf8Next (0, lo, hi) a = some (0, 0, 0) by unfold utf8Next; simp [ha]]
    · have hinv := utf8Scan_inv s _ hscan
      have hlo : 128 ≤ lo := by
        rcases hinv with h0 | h128
        · simp at h0
          omega
        · simpa using h128
      have hnone : utf8Next (need, lo, hi) a = none := by
        unfold utf8Next
        rw [if_neg (by simp; omega), if_neg (by simp; omega)]
      rw [hnone]
      obtain ⟨k, rfl⟩ : ∃ k, need = k + 1 := ⟨need - 1, by omega⟩
      rfl

/-! ### Linewise effect of CRLF replacement -/

/-- On a single raw line that does not end in two carriage returns before its
line feed, CRLF replacement changes neither the stripped bytes fed to the
context nor the UTF-8 validity of the raw line. -/
theorem replace_line_ok (l : List Nat) (h1 : l ≠ []) (h2 : 10 ∉ l.dropLast)
    (h3 : ¬ [13, 13, 10] <:+: l) :
    validUtf8 (replaceCRLF l) = validUtf8 l ∧ stripLine (replaceCRLF l) = stripLine l := by
  rcases l.eq_nil_or_concat' with rfl | ⟨s, a, rfl⟩
  · exact absurd rfl h1
  by_cases ha : a = 10
  case neg =>
    have hs : 10 ∉ s := by
      rw [List.dropLast_concat] at h2
      exact h2
    have hnol : 10 ∉ s ++ [a] := by
      intro hm
      rcases List.mem_append.mp hm with hm | hm
      · exact hs hm
      · simp only [List.mem_singleton] at hm
        exact ha hm.symm
    rw [replaceCRLF_no_lf _ hnol]
    exact ⟨rfl, rfl⟩
  case pos =>
    subst ha
    have hs : 10 ∉ s := by
      rw [List.dropLast_concat] at h2
      exact h2
    rcases s.eq_nil_or_concat' with rfl | ⟨t, x, rfl⟩
    · exact ⟨rfl, rfl⟩
    by_cases hx : x = 13
    case pos =>
      subst hx
      have ht10 : 10 ∉ t := fun hm => hs (List.mem_append.mpr (Or.inl hm))
      rcases t.eq_nil_or_concat' with rfl | ⟨u, y, rfl⟩
      · exact ⟨by rfl, by rfl⟩
      by_cases hy : y = 13
      case pos =>
        exfalso
        apply h3
        subst hy
        exact ⟨u, [], by simp⟩
      case neg =>
        have h10uy : 10 ∉ u ++ [y] := ht10
        have hl1 : ((u ++ [y]) ++ [13]) ++ [10] = (u ++ [y]) ++ [13, 10] := by simp
        have hrepl : replaceCRLF (((u ++ [y]) ++ [13]) ++ [10]) = (u ++ [y]) ++ [10] := by
          rw [hl1]
          exact replaceCRLF_append_crlf _ h10uy
        rw [hrepl, hl1]
        constructor
        · have e1 : validUtf8 ((u ++ [y]) ++ [10]) = validUtf8 (u ++ [y]) :=
            validUtf8_ascii (u ++ [y]) 10 (by omega)
          have e2 : validUtf8 ((u ++ [y]) ++ [13, 10]) = validUtf8 (u ++ [y]) := by
            have hx2 : (u ++ [y]) ++ [13, 10] = (((u ++ [y]) ++ [13]) ++ [10]) := by simp
            rw [hx2, validUtf8_ascii _ 10 (by omega), validUtf8_ascii _ 13 (by omega)]
          rw [e1, e2]
        · rw [stripLine_crlf]
          exact stripLine_lf_of_ne u y hy
    case neg =>
      have hx10 : x ≠ 10 := by
        intro hx10
        exact hs (by simp [hx10])
      have ht10 : 10 ∉ t := fun hm => hs (List.mem_append.mpr (Or.inl hm))
      have hl1 : (t ++ [x]) ++ [10] = t ++ [x, 10] := by simp
      rw [hl1, replaceCRLF_keep t x hx hx10 ht10]
      exact ⟨rfl, rfl⟩

theorem feedLines_map_replace :
    ∀ (ls : List (List Nat)) (ctx : HashContext),
      (∀ l ∈ ls, validUtf8 (replaceCRLF l) = validUtf8 l ∧
        stripLine (replaceCRLF l) = stripLine l) →
      feedLines ctx (ls.map replaceCRLF) = feedLines ctx ls := by
  intro ls
  induction ls with
  | nil =>
    intro ctx _
    rfl
  | cons a t ih =>
    intro ctx h
    obtain ⟨hv, hstr⟩ := h a (by simp)
    simp only [List.map_cons, feedLines]
    rw [hv, hstr]
    by_cases hva : validUtf8 a
    · rw [if_pos hva, if_pos hva]
      exact ih _ (fun l hl => h l (by simp [hl]))
    · rw [if_neg hva, if_neg hva]

/-- For file content without the byte sequence CR CR LF, replacing each CRLF
with a lone LF does not change the result of line-oriented file hashing. -/
theorem hashFileBytes_replace (alg : Hashing) (c : List Nat)
    (h : ¬ [13, 13, 10] <:+: c) :
    hashFileBytes alg (replaceCRLF c) = hashFileBytes alg c := by
  have hall : ∀ l ∈ splitLinesRaw c, validUtf8 (replaceCRLF l) = validUtf8 l ∧
      stripLine (replaceCRLF l) = stripLine l := by
    intro l hl
    obtain ⟨hne, hdl⟩ := splitLinesRaw_shape c l hl
    apply replace_line_ok l hne hdl
    intro hinf
    apply h
    have hlc : l <:+: c := by
      have hj := List.infix_of_mem_flatten hl
      rwa [splitLinesRaw_flatten] at hj
    exact hinf.trans hlc
  unfold hashFileBytes
  rw [splitLinesRaw_replace]
  rw [feedLines_map_replace (splitLinesRaw c) alg.new_context hall]

/-- Claim C10 as stated is false: in the file `[0x0D, 0x0D, 0x0A]` the line
reader strips only one carriage return, feeding `[0x0D]`, while after the
CRLF-to-LF replacement the line is empty, so the digests differ. -/
theorem c10_crlf_counterexample :
    ¬ (Hashing.Sha256.hash_file (fun _ => some (replaceCRLF [13, 13, 10])) ("f")
      = Hashing.Sha256.hash_file (fun _ => some [13, 13, 10]) ("f")) := by
  decide

/-- Claim C10, amended: for every file whose content does not contain the byte
sequence CR CR LF, replacing each CRLF pair with a lone LF leaves the digest
returned by `hash_file` unchanged. -/
theorem c10_crlf_amended (alg : Hashing) (fs fsr : String → Option (List Nat)) (path : String)
    (c : List Nat) (h1 : fs path = some c) (h2 : fsr path = some (replaceCRLF c))
    (h3 : ¬ [13, 13, 10] <:+: c) :
    alg.hash_file fsr path = alg.hash_file fs path := by
  unfold Hashing.hash_file
  rw [h1, h2]
  dsimp only
  exact hashFileBytes_replace alg c h3

theorem c10_crlf_amended_witness :
    ((fun (_ : String) => some [104, 13, 10]) ("p") = some [104, 13, 10]) ∧
    ((fun (_ : String) => some (replaceCRLF [104, 13, 10])) ("p")
      = some (replaceCRLF [104, 13, 10])) ∧
    (¬ [13, 13, 10] <:+: [104, 13, 10]) ∧
    Hashing.Sha256.hash_file (fun _ => some (replaceCRLF [104, 13, 10])) ("p")
      = Hashing.Sha256.hash_file (fun _ => some [104, 13, 10]) ("p") :=
  ⟨rfl, rfl, by decide,
    c10_crlf_amended Hashing.Sha256 (fun _ => some [104, 13, 10])
      (fun _ => some (replaceCRLF [104, 13, 10])) ("p") [104, 13, 10] rfl rfl (by decide)⟩

/-! ### Test vectors anchoring the modelled primitives (FIPS 180-4) -/

theorem sha1_abc_vector :
    (Hashing.Sha1.hash [97, 98, 99]).to_hex = ("a9993e364706816aba3e25717850c26c9cd0d89d") := by
  decide

theorem sha256_abc_vector :
    (Hashing.Sha256.hash [97, 98, 99]).to_hex
      = ("ba7816bf8f01cfea414140de5dae2223b00361a396177a9cb410ff61f20015ad") := by
  decide

theorem sha384_abc_vector :
    (Hashing.Sha384.hash [97, 98, 99]).to_hex
      = ("cb00753f45a35e8bb5a03d699ac65007272c32ab0eded1631a8b605a43ff5bed8086072ba1e7cc2358baeca134c825a7") := by
  decide

theorem sha512_abc_vector :
    (Hashing.Sha512.hash [97, 98, 99]).to_hex
      = ("ddaf35a193617abacc417349ae20413112e6fa4e89a97ea20a9eeee64b55d39a2192992a274fc1a836ba3c23a3feebbd454d4423643ce80e2a9ac94fa54ca49f") := by
  decide

theorem sha512_256_abc_vector :
    (Hashing.Sha512_256.hash [97, 98, 99]).to_hex
      = ("53048e2681941ef99b2e29b76b4c7dabe4c2d0c634fc6d46e0e2f13107e7af23") := by
  decide

/-- The end-to-end file scenario of the spec: a file holding exactly
`Hello, World!` with no trailing newline hashes (SHA-256) to the same digest
as hashing those bytes directly. -/
theorem hash_file_hello_scenario :
    Hashing.Sha256.hash_file
        (fun _ => some [72, 101, 108, 108, 111, 44, 32, 87, 111, 114, 108, 100, 33])
        ("testfile.txt")
      = Except.ok (Hashing.Sha256.hash [72, 101, 108, 108, 111, 44, 32, 87, 111, 114, 108, 100, 33]) := by
  decide


end FluentHash
